import Mathlib

/-!
Verification of the DonutSMP market-tracker record compaction store
(`app.py`): the record codec (`compress_transaction` /
`decompress_transaction`), the compaction policy (`optimize_data_storage`,
`cleanup_old_data`) and the archive store endpoints (`get_history`,
`save_history`, `overwrite_history`, `cleanup_history`).

Modelling conventions
- Python JSON-like values (dicts, lists, numbers, strings, booleans, None)
  are embedded as the inductive type `JVal`.  A dict is an association list
  of string keys; the dicts built by this program never repeat a key.
- `d.get(k)` is modelled by `pyGet` (returns `JVal.null` when the key is
  absent, and the stored value — possibly `null` — when present), and
  `d.get(k, dflt)` by `pyGetD`.  Both are observationally exact for dict
  receivers; calling `.get` on a non-dict raises in Python and lies outside
  the modelled domain, here the accessors return the default.
- Python truthiness of the values this program tests is `truthy`.
- Timestamps are int64 millisecond values (`ts`); `datetime.now()` is
  modelled by an explicit `now : Int` parameter in epoch milliseconds, so
  the age cutoff `now - DAYS_TO_KEEP days` is computed per invocation.
- `list.sort(key=...)` is a stable comparison sort; it is modelled by
  `List.insertionSort`, which is also stable, and any two stable sorts of
  the same list under the same key agree.
- The persisted archive file is modelled by `Blob`: absent, unparsable, or
  a parsed list of compact records.  Byte-level serialization is identity
  on the record list, which is exact for the parse/format distinctions the
  endpoints make.
-/

inductive JVal where
  | null
  | boolean (b : Bool)
  | num (n : Int)
  | str (s : String)
  | arr (xs : List JVal)
  | obj (kvs : List (String × JVal))

mutual

/-- Structural equality test on embedded values (Python `==` on the JSON
fragment used by the program). -/
def beqJ : JVal → JVal → Bool
  | .null, .null => true
  | .boolean a, .boolean b => a == b
  | .num a, .num b => a == b
  | .str a, .str b => a == b
  | .arr xs, .arr ys => beqL xs ys
  | .obj xs, .obj ys => beqKV xs ys
  | _, _ => false

def beqL : List JVal → List JVal → Bool
  | [], [] => true
  | x :: xs, y :: ys => beqJ x y && beqL xs ys
  | _, _ => false

def beqKV : List (String × JVal) → List (String × JVal) → Bool
  | [], [] => true
  | (k, v) :: xs, (l, w) :: ys => k == l && beqJ v w && beqKV xs ys
  | _, _ => false

end

mutual

theorem beqJ_sound : ∀ a b, beqJ a b = true → a = b
  | .null, .null, _ => rfl
  | .boolean a, .boolean b, h => by
      simp only [beqJ, beq_iff_eq] at h; exact h ▸ rfl
  | .num a, .num b, h => by
      simp only [beqJ, beq_iff_eq] at h; exact h ▸ rfl
  | .str a, .str b, h => by
      simp only [beqJ, beq_iff_eq] at h; exact h ▸ rfl
  | .arr xs, .arr ys, h => by
      simp only [beqJ] at h; exact congrArg JVal.arr (beqL_sound xs ys h)
  | .obj xs, .obj ys, h => by
      simp only [beqJ] at h; exact congrArg JVal.obj (beqKV_sound xs ys h)

theorem beqL_sound : ∀ xs ys, beqL xs ys = true → xs = ys
  | [], [], _ => rfl
  | x :: xs, y :: ys, h => by
      simp only [beqL, Bool.and_eq_true] at h
      exact congrArg₂ List.cons (beqJ_sound x y h.1) (beqL_sound xs ys h.2)

theorem beqKV_sound : ∀ xs ys, beqKV xs ys = true → xs = ys
  | [], [], _ => rfl
  | (k, v) :: xs, (l, w) :: ys, h => by
      simp only [beqKV, Bool.and_eq_true, beq_iff_eq] at h
      have h1 : (k, v) = (l, w) := by rw [h.1.1, beqJ_sound v w h.1.2]
      exact congrArg₂ List.cons h1 (beqKV_sound xs ys h.2)

end

mutual

theorem beqJ_refl : ∀ a, beqJ a a = true
  | .null => rfl
  | .boolean b => by simp [beqJ]
  | .num n => by simp [beqJ]
  | .str s => by simp [beqJ]
  | .arr xs => by simp only [beqJ]; exact beqL_refl xs
  | .obj xs => by simp only [beqJ]; exact beqKV_refl xs

theorem beqL_refl : ∀ xs, beqL xs xs = true
  | [] => rfl
  | x :: xs => by
      simp only [beqL, Bool.and_eq_true]
      exact ⟨beqJ_refl x, beqL_refl xs⟩

theorem beqKV_refl : ∀ xs, beqKV xs xs = true
  | [] => rfl
  | (k, v) :: xs => by
      simp only [beqKV, Bool.and_eq_true]
      exact ⟨⟨beq_self_eq_true k, beqJ_refl v⟩, beqKV_refl xs⟩

end

instance : DecidableEq JVal := fun a b =>
  decidable_of_iff (beqJ a b = true) ⟨beqJ_sound a b, fun h => h ▸ beqJ_refl a⟩

/-- Key lookup in an association list; the program never builds a dict with
a repeated key, so first-match lookup is exact. -/
def lookupKV : List (String × JVal) → String → Option JVal
  | [], _ => none
  | (k, v) :: rest, key => if k = key then some v else lookupKV rest key

/-- Lookup of a key in a dict value; `none` when the key is absent or the
receiver is not a dict. -/
def JVal.get : JVal → String → Option JVal
  | .obj kvs, key => lookupKV kvs key
  | _, _ => none

/-- Python `d.get(k)`: the stored value when present, `None` otherwise. -/
def pyGet (v : JVal) (key : String) : JVal := (v.get key).getD .null

/-- Python `d.get(k, dflt)`: the stored value when present, `dflt`
otherwise. -/
def pyGetD (v : JVal) (key : String) (dflt : JVal) : JVal := (v.get key).getD dflt

/-- Python truthiness of the embedded values: `None`, `False`, `0`, the
empty string, the empty list and the empty dict are falsy. -/
def truthy : JVal → Bool
  | .null => false
  | .boolean b => b
  | .num n => decide (n ≠ 0)
  | .str s => decide (s ≠ "")
  | .arr xs => !xs.isEmpty
  | .obj kvs => !kvs.isEmpty

/-- The constant `MAX_RECORDS = 150000` of `app.py`. -/
def MAX_RECORDS : Nat := 150000

/-- The constant `DAYS_TO_KEEP = 14` of `app.py`. -/
def DAYS_TO_KEEP : Int := 14

/-- Milliseconds per day, the unit conversion done by
`timedelta(days=...)` and `.timestamp() * 1000`. -/
def MILLIS_PER_DAY : Int := 86400000

/-- The cutoff `int((datetime.now() - timedelta(days=DAYS_TO_KEEP)).timestamp() * 1000)`
with the current time supplied as `now` in epoch milliseconds. -/
def cutoffMillis (now : Int) : Int := now - DAYS_TO_KEEP * MILLIS_PER_DAY

/-- `compress_transaction` of `app.py`: shortens field names, defaults
`count` to 1, and adds `e` / `t` / `cont` only when the corresponding
canonical field is present and truthy. -/
def compress_transaction (tx : JVal) : JVal :=
  let item := pyGetD tx "item" (.obj [])
  let enchants := pyGetD item "enchants" (.obj [])
  let levels := pyGet (pyGetD enchants "enchantments" (.obj [])) "levels"
  let iBase : List (String × JVal) :=
    [("id", pyGet item "id"), ("c", pyGetD item "count" (.num 1))]
  let iWithE :=
    if truthy enchants && truthy levels then iBase ++ [("e", levels)] else iBase
  let iWithT :=
    if truthy enchants && truthy (pyGet enchants "trim") then
      iWithE ++ [("t", pyGet enchants "trim")]
    else iWithE
  let iAll :=
    if truthy (pyGet item "contents") then
      iWithT ++ [("cont", pyGet item "contents")]
    else iWithT
  .obj [("ts", pyGet tx "unixMillisDateSold"),
        ("p", pyGet tx "price"),
        ("i", .obj iAll),
        ("s", pyGet (pyGetD tx "seller" (.obj [])) "name")]

/-- `decompress_transaction` of `app.py`: restores the canonical field
names; `count` defaults to 1, `contents` to the empty list, and the
`enchants` key is rebuilt (an empty dict when neither `e` nor `t` is
truthy). -/
def decompress_transaction (ctx : JVal) : JVal :=
  let i := pyGetD ctx "i" (.obj [])
  .obj [("unixMillisDateSold", pyGet ctx "ts"),
        ("price", pyGet ctx "p"),
        ("item", .obj
          [("id", pyGet i "id"),
           ("count", pyGetD i "c" (.num 1)),
           ("enchants",
             if truthy (pyGet i "e") || truthy (pyGet i "t") then
               .obj [("enchantments", .obj [("levels", pyGetD i "e" (.obj []))]),
                     ("trim", pyGet i "t")]
             else .obj []),
           ("contents", pyGetD i "cont" (.arr []))]),
        ("seller", .obj [("name", pyGet ctx "s")])]

/-- The sort key `x.get('ts', 0)` used by the policy; a compact record's
timestamp is an int64 number (§3 of the data model), so non-numeric values
do not occur in archives produced by the program. -/
def tsKey (r : JVal) : Int :=
  match pyGetD r "ts" (.num 0) with
  | .num n => n
  | _ => 0

/-- The deduplication key
`(record.get('ts'), record.get('p'), record.get('i', {}).get('id'), record.get('s'))`
of `optimize_data_storage`. -/
def dedupKey (r : JVal) : JVal × JVal × JVal × JVal :=
  (pyGet r "ts", pyGet r "p", pyGet (pyGetD r "i" (.obj [])) "id", pyGet r "s")

/-- `cleanup_old_data` of `app.py` (with its `days_to_keep` parameter at
its default `DAYS_TO_KEEP`, the only way the program calls it): keeps the
records with `ts` at or after the cutoff. -/
def cleanup_old_data (now : Int) (records : List JVal) : List JVal :=
  if records.isEmpty then records
  else records.filter (fun r => decide (cutoffMillis now ≤ tsKey r))

/-- The deduplication loop of `optimize_data_storage`: a `seen` set of
keys, the first record bearing each key is appended to the output. -/
def dedupAux (seen : List (JVal × JVal × JVal × JVal)) : List JVal → List JVal
  | [] => []
  | r :: rs =>
    if dedupKey r ∈ seen then dedupAux seen rs
    else r :: dedupAux (dedupKey r :: seen) rs

/-- Comparison relation of `unique_records.sort(key=lambda x: x.get('ts', 0))`. -/
def tsLE (a b : JVal) : Prop := tsKey a ≤ tsKey b

instance : DecidableRel tsLE := fun a b => inferInstanceAs (Decidable (tsKey a ≤ tsKey b))

instance : IsTotal JVal tsLE := ⟨fun a b => Int.le_total (tsKey a) (tsKey b)⟩

instance : IsTrans JVal tsLE := ⟨fun _ _ _ h1 h2 => le_trans h1 h2⟩

/-- `optimize_data_storage` of `app.py`: dedup by first-seen key, stable
sort ascending by `ts`, keep the newest `MAX_RECORDS` when over capacity,
then drop records older than the cutoff. -/
def optimize_data_storage (now : Int) (records : List JVal) : List JVal :=
  if records.isEmpty then []
  else
    let unique_records := dedupAux [] records
    let sorted_records := List.insertionSort tsLE unique_records
    let capped :=
      if MAX_RECORDS < sorted_records.length then
        sorted_records.drop (sorted_records.length - MAX_RECORDS)
      else sorted_records
    cleanup_old_data now capped

/-- State of the persisted archive file: absent, present but unparsable,
or a parsed list of compact records. -/
inductive Blob where
  | missing
  | corrupt
  | good (records : List JVal)
  deriving DecidableEq

/-- Response of the `GET /history` endpoint. -/
inductive ReadResult where
  | ok (records : List JVal)
  | readError
  deriving DecidableEq

/-- `get_history` of `app.py` (ReadAll): empty list when no archive file,
HTTP 500 when the blob cannot be parsed, otherwise every stored record
decompressed in stored order. -/
def get_history : Blob → ReadResult
  | .missing => .ok []
  | .corrupt => .readError
  | .good rs => .ok (rs.map decompress_transaction)

/-- Response of the `POST /history` and `POST /history/overwrite`
endpoints (the `compression_ratio` display string is not modelled). -/
inductive SaveResult where
  | ok (total_records : Nat)
  | invalidInput
  deriving DecidableEq

/-- `save_history` of `app.py` (AppendMerge): rejects non-list input with
HTTP 400 leaving the blob untouched; otherwise loads the existing archive
(a missing or unparsable blob becomes the empty list), appends the
compressed new records after the existing ones, optimizes, and persists. -/
def save_history (now : Int) (b : Blob) (input : JVal) : Blob × SaveResult :=
  match input with
  | .arr new_records =>
    let all_records := match b with | .good rs => rs | _ => []
    let merged := all_records ++ new_records.map compress_transaction
    let optimized := optimize_data_storage now merged
    (.good optimized, .ok optimized.length)
  | _ => (b, .invalidInput)

/-- `overwrite_history` of `app.py` (Overwrite): rejects non-list input
with HTTP 400 leaving the blob untouched; otherwise compresses, optimizes
and persists, discarding the previous archive. -/
def overwrite_history (now : Int) (b : Blob) (input : JVal) : Blob × SaveResult :=
  match input with
  | .arr new_records =>
    let optimized := optimize_data_storage now (new_records.map compress_transaction)
    (.good optimized, .ok optimized.length)
  | _ => (b, .invalidInput)

/-- Response of the `POST /history/cleanup` endpoint. -/
inductive CleanupResult where
  | noFile
  | ok (original_records cleaned_records : Nat) (removed : Int)
  | readError
  deriving DecidableEq

/-- `cleanup_history` of `app.py` (Compact): success message when no
archive file exists, HTTP 500 when the blob cannot be parsed (leaving it
untouched), otherwise optimizes the stored records, persists, and reports
the before and after counts. -/
def cleanup_history (now : Int) : Blob → Blob × CleanupResult
  | .missing => (.missing, .noFile)
  | .corrupt => (.corrupt, .readError)
  | .good rs =>
    let optimized := optimize_data_storage now rs
    (.good optimized, .ok rs.length optimized.length ((rs.length : Int) - optimized.length))

/-- Declarative first-occurrence deduplication, stated as §4.2 step 1 of
the specification words it: keep each record, dropping later records whose
identity key already occurred. -/
def specDedup : List JVal → List JVal
  | [] => []
  | r :: rs => r :: (specDedup rs).filter (fun x => decide (dedupKey x ≠ dedupKey r))

/-- Size capping as §4.2 step 3 words it: when over capacity keep only the
suffix of length `MAX_RECORDS`. -/
def specCap (l : List JVal) : List JVal :=
  if MAX_RECORDS < l.length then l.drop (l.length - MAX_RECORDS) else l

/-- Age-based eviction as §4.2 step 4 words it: drop every record whose
`ts` is older than the cutoff. -/
def specAgeFilter (now : Int) (l : List JVal) : List JVal :=
  l.filter (fun r => decide (cutoffMillis now ≤ tsKey r))

/-- The four policy steps of §4.2 in the stated order: deduplicate, sort
ascending by `ts`, size-cap, then age-filter. -/
def specPipeline (now : Int) (records : List JVal) : List JVal :=
  specAgeFilter now (specCap (List.insertionSort tsLE (specDedup records)))

theorem cleanup_old_data_eq_filter (now : Int) (records : List JVal) :
    cleanup_old_data now records =
      records.filter (fun r => decide (cutoffMillis now ≤ tsKey r)) := by
  cases records <;> simp [cleanup_old_data]

theorem dedupAux_eq (rs : List JVal) :
    ∀ seen, dedupAux seen rs =
      (specDedup rs).filter (fun x => decide (dedupKey x ∉ seen)) := by
  induction rs with
  | nil => intro seen; simp [dedupAux, specDedup]
  | cons r rs ih =>
    intro seen
    by_cases h : dedupKey r ∈ seen
    · rw [dedupAux, if_pos h, ih seen, specDedup, List.filter_cons_of_neg (by simpa using h),
        List.filter_filter]
      apply List.filter_congr
      intro x _
      by_cases hx : dedupKey x = dedupKey r
      · simp [hx, h]
      · simp [hx]
    · rw [dedupAux, if_neg h, ih (dedupKey r :: seen), specDedup,
        List.filter_cons_of_pos (by simpa using h), List.filter_filter]
      congr 1
      apply List.filter_congr
      intro x _
      by_cases hx : dedupKey x = dedupKey r
      · simp [hx, h, List.mem_cons]
      · by_cases hs : dedupKey x ∈ seen <;> simp [hx, hs, List.mem_cons]

theorem dedupAux_nil_eq (rs : List JVal) : dedupAux [] rs = specDedup rs := by
  rw [dedupAux_eq]
  exact List.filter_eq_self.mpr (fun a _ => by simp)

theorem specDedup_pairwise (rs : List JVal) :
    (specDedup rs).Pairwise (fun a b => dedupKey a ≠ dedupKey b) := by
  induction rs with
  | nil => simp [specDedup]
  | cons r rs ih =>
    rw [specDedup]
    refine List.Pairwise.cons ?_ (List.Pairwise.sublist (List.filter_sublist _) ih)
    intro b hb
    have := (List.mem_filter.mp hb).2
    exact Ne.symm (of_decide_eq_true this)

theorem specDedup_sublist (rs : List JVal) : (specDedup rs).Sublist rs := by
  induction rs with
  | nil => simp [specDedup]
  | cons r rs ih =>
    rw [specDedup]
    exact List.Sublist.cons₂ r ((List.filter_sublist _).trans ih)

theorem mem_of_mem_specDedup {rs : List JVal} {x : JVal}
    (h : x ∈ specDedup rs) : x ∈ rs :=
  (specDedup_sublist rs).subset h

theorem mem_specDedup_firstOcc (xs1 xs2 : List JVal) (r : JVal)
    (hfirst : ∀ x ∈ xs1, dedupKey x ≠ dedupKey r) :
    r ∈ specDedup (xs1 ++ r :: xs2) := by
  induction xs1 with
  | nil => rw [List.nil_append, specDedup]; exact List.mem_cons_self r _
  | cons a xs1 ih =>
    have ha : dedupKey a ≠ dedupKey r := hfirst a (List.mem_cons_self a xs1)
    rw [List.cons_append, specDedup]
    apply List.mem_cons_of_mem
    rw [List.mem_filter]
    refine ⟨ih (fun x hx => hfirst x (List.mem_cons_of_mem a hx)), ?_⟩
    exact decide_eq_true (Ne.symm ha)

theorem eq_of_mem_specDedup_firstOcc (xs1 xs2 : List JVal) (r : JVal)
    (hfirst : ∀ x ∈ xs1, dedupKey x ≠ dedupKey r) :
    ∀ y ∈ specDedup (xs1 ++ r :: xs2), dedupKey y = dedupKey r → y = r := by
  induction xs1 with
  | nil =>
    intro y hy hkey
    rw [List.nil_append, specDedup] at hy
    rcases List.mem_cons.mp hy with h | h
    · exact h
    · exact absurd hkey (of_decide_eq_true (List.mem_filter.mp h).2)
  | cons a xs1 ih =>
    intro y hy hkey
    rw [List.cons_append, specDedup] at hy
    rcases List.mem_cons.mp hy with h | h
    · exact absurd (h ▸ hkey) (hfirst a (List.mem_cons_self a xs1))
    · exact ih (fun x hx => hfirst x (List.mem_cons_of_mem a hx)) y
        (List.mem_filter.mp h).1 hkey

theorem specDedup_eq_self {l : List JVal}
    (h : l.Pairwise (fun a b => dedupKey a ≠ dedupKey b)) : specDedup l = l := by
  induction l with
  | nil => rfl
  | cons r rs ih =>
    rw [specDedup, ih (List.pairwise_cons.mp h).2]
    congr 1
    exact List.filter_eq_self.mpr
      (fun x hx => decide_eq_true (Ne.symm ((List.pairwise_cons.mp h).1 x hx)))

theorem optimize_eq_specPipeline (now : Int) (records : List JVal) :
    optimize_data_storage now records = specPipeline now records := by
  cases records with
  | nil => simp [optimize_data_storage, specPipeline, specAgeFilter, specCap, specDedup]
  | cons r rs =>
    rw [optimize_data_storage]
    simp only [List.isEmpty_cons, Bool.false_eq_true, if_false]
    rw [dedupAux_nil_eq, cleanup_old_data_eq_filter]
    rfl

theorem specCap_sublist (l : List JVal) : (specCap l).Sublist l := by
  unfold specCap
  split
  · exact List.drop_sublist _ _
  · exact List.Sublist.refl l

theorem specCap_length_le (l : List JVal) : (specCap l).length ≤ MAX_RECORDS := by
  unfold specCap
  split
  · rw [List.length_drop]; omega
  · omega

theorem mem_specDedup_of_mem_optimize {now : Int} {rs : List JVal} {x : JVal}
    (h : x ∈ optimize_data_storage now rs) : x ∈ specDedup rs := by
  rw [optimize_eq_specPipeline] at h
  unfold specPipeline specAgeFilter at h
  have h1 := (List.mem_filter.mp h).1
  have h2 : x ∈ List.insertionSort tsLE (specDedup rs) := (specCap_sublist _).subset h1
  exact (List.perm_insertionSort tsLE _).subset h2

theorem mem_input_of_mem_optimize {now : Int} {rs : List JVal} {x : JVal}
    (h : x ∈ optimize_data_storage now rs) : x ∈ rs :=
  mem_of_mem_specDedup (mem_specDedup_of_mem_optimize h)

theorem optimize_sorted (now : Int) (rs : List JVal) :
    List.Sorted tsLE (optimize_data_storage now rs) := by
  rw [optimize_eq_specPipeline]
  unfold specPipeline specAgeFilter
  exact List.Pairwise.sublist ((List.filter_sublist _).trans (specCap_sublist _))
    (List.sorted_insertionSort tsLE (specDedup rs))

theorem optimize_length_le (now : Int) (rs : List JVal) :
    (optimize_data_storage now rs).length ≤ MAX_RECORDS := by
  rw [optimize_eq_specPipeline]
  unfold specPipeline specAgeFilter
  exact le_trans (List.length_filter_le _ _) (specCap_length_le _)

theorem optimize_ts_ge {now : Int} {rs : List JVal} {x : JVal}
    (h : x ∈ optimize_data_storage now rs) : cutoffMillis now ≤ tsKey x := by
  rw [optimize_eq_specPipeline] at h
  unfold specPipeline specAgeFilter at h
  exact of_decide_eq_true (List.mem_filter.mp h).2

theorem optimize_keys_pairwise (now : Int) (rs : List JVal) :
    (optimize_data_storage now rs).Pairwise (fun a b => dedupKey a ≠ dedupKey b) := by
  rw [optimize_eq_specPipeline]
  unfold specPipeline specAgeFilter
  have hperm := List.perm_insertionSort tsLE (specDedup rs)
  have hsorted : (List.insertionSort tsLE (specDedup rs)).Pairwise
      (fun a b => dedupKey a ≠ dedupKey b) :=
    (List.Perm.pairwise_iff (fun h => Ne.symm h) hperm).mpr (specDedup_pairwise rs)
  exact List.Pairwise.sublist ((List.filter_sublist _).trans (specCap_sublist _)) hsorted

theorem optimize_idem (now : Int) (rs : List JVal) :
    optimize_data_storage now (optimize_data_storage now rs) =
      optimize_data_storage now rs := by
  rw [optimize_eq_specPipeline now (optimize_data_storage now rs)]
  unfold specPipeline
  rw [specDedup_eq_self (optimize_keys_pairwise now rs),
    List.Sorted.insertionSort_eq (optimize_sorted now rs)]
  unfold specCap
  rw [if_neg (by have := optimize_length_le now rs; omega)]
  unfold specAgeFilter
  exact List.filter_eq_self.mpr (fun x hx => decide_eq_true (optimize_ts_ge hx))

/-- Claim C3: for every input sequence, the compaction policy performs
exactly the documented steps in the documented order — deduplicate by
identity key keeping first-seen records, sort ascending by `ts`, size-cap
to the newest `MAX_RECORDS`, then age-filter against the cutoff derived
from the invocation-time clock — in particular size-capping is applied
before age-cleanup. -/
theorem claim_c3_policy_step_order (now : Int) (records : List JVal) :
    optimize_data_storage now records =
      specAgeFilter now (specCap (List.insertionSort tsLE (specDedup records))) :=
  optimize_eq_specPipeline now records

/-- Claim C5: Compact is idempotent — a second `cleanup_history` at the
same invocation clock leaves every archive state unchanged, and on an
already-compacted archive it reports before == after and removed == 0. -/
theorem claim_c5_compact_idempotent (now : Int) (b : Blob) (rs : List JVal) :
    (cleanup_history now (cleanup_history now b).1).1 = (cleanup_history now b).1 ∧
    cleanup_history now (cleanup_history now (.good rs)).1 =
      ((cleanup_history now (.good rs)).1,
       .ok (optimize_data_storage now rs).length (optimize_data_storage now rs).length 0) := by
  constructor
  · cases b with
    | missing => rfl
    | corrupt => rfl
    | good rs2 => simp [cleanup_history, optimize_idem]
  · simp [cleanup_history, optimize_idem]

/-- Claim C6: when the persisted blob cannot be parsed, ReadAll
(`get_history`) and Compact (`cleanup_history`) fail with the archive-read
error and never return partial data, while AppendMerge (`save_history`)
silently treats the corrupt archive as empty and rebuilds and persists a
clean archive from the incoming records alone. -/
theorem claim_c6_corrupt_archive (now : Int) (xs : List JVal) :
    get_history .corrupt = .readError ∧
    cleanup_history now .corrupt = (.corrupt, .readError) ∧
    save_history now .corrupt (.arr xs) = save_history now .missing (.arr xs) ∧
    (save_history now .corrupt (.arr xs)).1 =
      .good (optimize_data_storage now (xs.map compress_transaction)) := by
  refine ⟨rfl, rfl, rfl, ?_⟩
  simp [save_history]

/-- Claim C7 amended: on input that is not a sequence at all — the only
rejection the store performs — AppendMerge (`save_history`) and Overwrite
(`overwrite_history`) fail with the invalid-input rejection and leave the
persisted archive exactly as it was (no partial mutation).  Sequences are
accepted regardless of their elements, which reach the codec unvalidated
(see the accompanying counterexample). -/
theorem claim_c7_invalid_input (now : Int) (b : Blob) (v : JVal)
    (h : ∀ xs, v ≠ JVal.arr xs) :
    save_history now b v = (b, .invalidInput) ∧
    overwrite_history now b v = (b, .invalidInput) := by
  cases v with
  | arr xs => exact absurd rfl (h xs)
  | null => exact ⟨rfl, rfl⟩
  | boolean b2 => exact ⟨rfl, rfl⟩
  | num n => exact ⟨rfl, rfl⟩
  | str s => exact ⟨rfl, rfl⟩
  | obj kvs => exact ⟨rfl, rfl⟩

theorem claim_c7_invalid_input_witness :
    (∀ xs, JVal.num 3 ≠ JVal.arr xs) ∧
    save_history 0 (.good []) (JVal.num 3) = (.good [], .invalidInput) ∧
    overwrite_history 0 (.good []) (JVal.num 3) = (.good [], .invalidInput) := by
  have h : ∀ xs, JVal.num 3 ≠ JVal.arr xs := fun xs h => JVal.noConfusion h
  have hc := claim_c7_invalid_input 0 (.good []) (JVal.num 3) h
  exact ⟨h, hc.1, hc.2⟩

/-- Claim C10: for every compact value, decode yields the full canonical
key set — `count` defaults to 1 when `c` is absent, `contents` to the
empty list when `cont` is absent, the `enchants` key is always present
(the empty dict when neither `e` nor `t` is truthy), and missing leaf
fields become `None` markers instead of errors. -/
theorem claim_c10_decode_defaults (cv : JVal) :
    pyGet (decompress_transaction cv) "unixMillisDateSold" = pyGet cv "ts" ∧
    pyGet (decompress_transaction cv) "price" = pyGet cv "p" ∧
    pyGet (pyGet (decompress_transaction cv) "seller") "name" = pyGet cv "s" ∧
    ((decompress_transaction cv).get "item").isSome = true ∧
    pyGet (pyGet (decompress_transaction cv) "item") "id" =
      pyGet (pyGetD cv "i" (.obj [])) "id" ∧
    pyGet (pyGet (decompress_transaction cv) "item") "count" =
      pyGetD (pyGetD cv "i" (.obj [])) "c" (.num 1) ∧
    pyGet (pyGet (decompress_transaction cv) "item") "contents" =
      pyGetD (pyGetD cv "i" (.obj [])) "cont" (.arr []) ∧
    ((pyGet (decompress_transaction cv) "item").get "enchants").isSome = true ∧
    pyGet (pyGet (decompress_transaction cv) "item") "enchants" =
      (if truthy (pyGet (pyGetD cv "i" (.obj [])) "e")
          || truthy (pyGet (pyGetD cv "i" (.obj [])) "t") then
         JVal.obj [("enchantments",
                     .obj [("levels", pyGetD (pyGetD cv "i" (.obj [])) "e" (.obj []))]),
                   ("trim", pyGet (pyGetD cv "i" (.obj [])) "t")]
       else .obj []) :=
  ⟨rfl, rfl, rfl, rfl, rfl, rfl, rfl, rfl, rfl⟩

/-- Canonical wire-shape record (§3 of the data model) with every optional
item field explicitly present: enchantment levels, trim and contents. -/
def mkCanonical (ts p : Int) (iid : String) (c : Int) (levels : List (String × JVal))
    (tv : JVal) (contents : List JVal) (seller : String) : JVal :=
  .obj [("unixMillisDateSold", .num ts),
        ("price", .num p),
        ("item", .obj
          [("id", .str iid),
           ("count", .num c),
           ("enchants", .obj [("enchantments", .obj [("levels", .obj levels)]),
                              ("trim", tv)]),
           ("contents", .arr contents)]),
        ("seller", .obj [("name", .str seller)])]

/-- Canonical record after the documented absence-marker normalization:
optional fields that were empty come back as present-but-empty canonical
structures (`enchants` the empty dict, `contents` the empty list). -/
def mkCanonicalNormalized (ts p : Int) (iid : String) (c : Int) (seller : String) : JVal :=
  .obj [("unixMillisDateSold", .num ts),
        ("price", .num p),
        ("item", .obj
          [("id", .str iid),
           ("count", .num c),
           ("enchants", .obj []),
           ("contents", .arr [])]),
        ("seller", .obj [("name", .str seller)])]

/-- Claim C1: for canonical records with populated optional fields the
codec round-trips exactly — identity-key fields (`ts`, price, item id,
seller name) and non-key fields (count, enchantment levels, trim,
contents) are all reproduced in value — while a record whose optional
fields are empty decodes to canonical empty structures that are present,
never omitted. -/
theorem claim_c1_codec_round_trip (ts p c : Int) (iid seller : String)
    (levels : List (String × JVal)) (tv : JVal) (contents : List JVal)
    (hlev : levels ≠ []) (htv : truthy tv = true) (hcont : contents ≠ []) :
    decompress_transaction (compress_transaction
        (mkCanonical ts p iid c levels tv contents seller)) =
      mkCanonical ts p iid c levels tv contents seller ∧
    decompress_transaction (compress_transaction
        (mkCanonical ts p iid c [] .null [] seller)) =
      mkCanonicalNormalized ts p iid c seller := by
  have hlev2 : levels.isEmpty = false := List.isEmpty_eq_false.mpr hlev
  have hcont2 : contents.isEmpty = false := List.isEmpty_eq_false.mpr hcont
  have truthy_obj : ∀ kvs, truthy (.obj kvs) = !kvs.isEmpty := fun _ => rfl
  have truthy_arr : ∀ xs, truthy (.arr xs) = !xs.isEmpty := fun _ => rfl
  constructor
  · have hcomp : compress_transaction (mkCanonical ts p iid c levels tv contents seller) =
        .obj [("ts", .num ts), ("p", .num p),
              ("i", .obj [("id", .str iid), ("c", .num c), ("e", .obj levels),
                          ("t", tv), ("cont", .arr contents)]),
              ("s", .str seller)] := by
      simp [compress_transaction, mkCanonical, pyGet, pyGetD, JVal.get, lookupKV,
        truthy_obj, truthy_arr, hlev2, hcont2, htv]
    rw [hcomp]
    simp [decompress_transaction, mkCanonical, pyGet, pyGetD, JVal.get, lookupKV,
      truthy_obj, truthy_arr, hlev2, htv]
  · rfl

theorem claim_c1_codec_round_trip_witness :
    ([("sharpness", JVal.num 5)] ≠ ([] : List (String × JVal))) ∧
    truthy (JVal.str "gold") = true ∧
    ([JVal.num 1] ≠ ([] : List JVal)) ∧
    (decompress_transaction (compress_transaction
        (mkCanonical 1 2 "sword" 3 [("sharpness", JVal.num 5)] (JVal.str "gold")
          [JVal.num 1] "bob")) =
      mkCanonical 1 2 "sword" 3 [("sharpness", JVal.num 5)] (JVal.str "gold")
        [JVal.num 1] "bob" ∧
     decompress_transaction (compress_transaction
        (mkCanonical 1 2 "sword" 3 [] .null [] "bob")) =
      mkCanonicalNormalized 1 2 "sword" 3 "bob") := by
  refine ⟨by decide, by decide, by decide, ?_⟩
  exact claim_c1_codec_round_trip 1 2 3 "sword" "bob" [("sharpness", JVal.num 5)]
    (JVal.str "gold") [JVal.num 1] (by decide) (by decide) (by decide)

/-- A compact record with timestamp `n` and an otherwise fixed identity;
distinct `n` give distinct identity keys. -/
def recordAt (n : Nat) : JVal :=
  .obj [("ts", .num (n : Int)), ("p", .num 0),
        ("i", .obj [("id", .str "stone")]), ("s", .str "alice")]

/-- An input of `MAX_RECORDS + 1` pairwise-distinct compact records with
timestamps `0, 1, ..., MAX_RECORDS`. -/
def manyRecords : List JVal := (List.range (MAX_RECORDS + 1)).map recordAt

/-- An invocation clock (epoch milliseconds) far later than every
`manyRecords` timestamp, so the whole batch is older than the cutoff. -/
def nowLate : Int := 2000000000000

theorem recordAt_tsKey (n : Nat) : tsKey (recordAt n) = n := rfl

theorem recordAt_key_inj {n m : Nat} (h : dedupKey (recordAt n) = dedupKey (recordAt m)) :
    n = m := by
  simp only [dedupKey, recordAt, pyGet, pyGetD, JVal.get, lookupKV] at h
  have := congrArg Prod.fst h
  simp at this
  exact_mod_cast this

theorem manyRecords_pairwise :
    manyRecords.Pairwise (fun a b => dedupKey a ≠ dedupKey b) := by
  unfold manyRecords
  rw [List.pairwise_map]
  refine List.Pairwise.imp ?_ (List.pairwise_lt_range (MAX_RECORDS + 1))
  intro a b hlt heq
  exact absurd (recordAt_key_inj heq) (Nat.ne_of_lt hlt)

theorem specDedup_manyRecords : specDedup manyRecords = manyRecords :=
  specDedup_eq_self manyRecords_pairwise

theorem manyRecords_length : manyRecords.length = MAX_RECORDS + 1 := by
  simp [manyRecords]

/-- Claim C2 as stated is false: `manyRecords` deduplicates to
`MAX_RECORDS + 1` records (exceeding capacity), yet the policy output is
empty — size 0, not `MAX_RECORDS` — because age-cleanup runs after
size-capping and evicts the entire capped batch. -/
theorem claim_c2_counterexample :
    MAX_RECORDS < (specDedup manyRecords).length ∧
    optimize_data_storage nowLate manyRecords = [] := by
  constructor
  · rw [specDedup_manyRecords, manyRecords_length]; omega
  · rw [optimize_eq_specPipeline]
    unfold specPipeline specAgeFilter
    apply List.filter_eq_nil_iff.mpr
    intro a ha
    have h2 : a ∈ List.insertionSort tsLE (specDedup manyRecords) :=
      (specCap_sublist _).subset ha
    have h3 := (List.perm_insertionSort tsLE _).subset h2
    rw [specDedup_manyRecords] at h3
    obtain ⟨n, hn, hna⟩ := List.mem_map.mp h3
    rw [List.mem_range] at hn
    subst hna
    rw [recordAt_tsKey]
    simp only [decide_eq_true_eq, not_le]
    unfold cutoffMillis nowLate DAYS_TO_KEEP MILLIS_PER_DAY
    unfold MAX_RECORDS at hn
    omega

/-- Claim C2 amended: for input whose deduplicated size exceeds
`MAX_RECORDS` and whose records are all within the retention window at the
invocation clock, the policy output is exactly the suffix of length
`MAX_RECORDS` of the `ts`-sorted deduplicated records — so its size is
exactly `MAX_RECORDS` and every evicted record is no newer than any
retained one. -/
theorem claim_c2_capacity_bound (now : Int) (rs : List JVal)
    (hall : ∀ r ∈ rs, cutoffMillis now ≤ tsKey r)
    (hlen : MAX_RECORDS < (specDedup rs).length) :
    optimize_data_storage now rs =
      (List.insertionSort tsLE (specDedup rs)).drop
        ((List.insertionSort tsLE (specDedup rs)).length - MAX_RECORDS) ∧
    (optimize_data_storage now rs).length = MAX_RECORDS ∧
    ∀ x ∈ optimize_data_storage now rs,
      ∀ y ∈ (List.insertionSort tsLE (specDedup rs)).take
        ((List.insertionSort tsLE (specDedup rs)).length - MAX_RECORDS),
        tsKey y ≤ tsKey x := by
  have hLlen : MAX_RECORDS < (List.insertionSort tsLE (specDedup rs)).length := by
    rw [(List.perm_insertionSort tsLE (specDedup rs)).length_eq]; exact hlen
  have hmain : optimize_data_storage now rs =
      (List.insertionSort tsLE (specDedup rs)).drop
        ((List.insertionSort tsLE (specDedup rs)).length - MAX_RECORDS) := by
    rw [optimize_eq_specPipeline]
    unfold specPipeline specAgeFilter specCap
    rw [if_pos hLlen]
    apply List.filter_eq_self.mpr
    intro a ha
    have h2 : a ∈ List.insertionSort tsLE (specDedup rs) := (List.drop_subset _ _) ha
    have h3 : a ∈ rs := mem_of_mem_specDedup ((List.perm_insertionSort tsLE _).subset h2)
    exact decide_eq_true (hall a h3)
  refine ⟨hmain, ?_, ?_⟩
  · rw [hmain, List.length_drop]; omega
  · intro x hx y hy
    rw [hmain] at hx
    have hs : List.Sorted tsLE (List.insertionSort tsLE (specDedup rs)) :=
      List.sorted_insertionSort tsLE (specDedup rs)
    have hsplit : List.Pairwise tsLE
        ((List.insertionSort tsLE (specDedup rs)).take
          ((List.insertionSort tsLE (specDedup rs)).length - MAX_RECORDS) ++
         (List.insertionSort tsLE (specDedup rs)).drop
          ((List.insertionSort tsLE (specDedup rs)).length - MAX_RECORDS)) := by
      rw [List.take_append_drop]; exact hs
    exact (List.pairwise_append.mp hsplit).2.2 y hy x hx

theorem claim_c2_capacity_bound_witness :
    (∀ r ∈ manyRecords, cutoffMillis 0 ≤ tsKey r) ∧
    MAX_RECORDS < (specDedup manyRecords).length ∧
    (optimize_data_storage 0 manyRecords).length = MAX_RECORDS := by
  have h1 : ∀ r ∈ manyRecords, cutoffMillis 0 ≤ tsKey r := by
    intro r hr
    obtain ⟨n, hn, hna⟩ := List.mem_map.mp hr
    subst hna
    rw [recordAt_tsKey]
    unfold cutoffMillis DAYS_TO_KEEP MILLIS_PER_DAY
    omega
  have h2 : MAX_RECORDS < (specDedup manyRecords).length := by
    rw [specDedup_manyRecords, manyRecords_length]; omega
  exact ⟨h1, h2, (claim_c2_capacity_bound 0 manyRecords h1 h2).2.1⟩

/-- A compact record with identity `(ts 0, p 5, id stone, seller alice)`
and count 1. -/
def dupA : JVal :=
  .obj [("ts", .num 0), ("p", .num 5),
        ("i", .obj [("id", .str "stone"), ("c", .num 1)]), ("s", .str "alice")]

/-- The same identity key as `dupA` but count 2. -/
def dupB : JVal :=
  .obj [("ts", .num 0), ("p", .num 5),
        ("i", .obj [("id", .str "stone"), ("c", .num 2)]), ("s", .str "alice")]

/-- Claim C4 as stated is false: `dupA` and `dupB` share an identity key
and differ only in count, yet at a late invocation clock the policy
retains neither of them (the age filter evicts the first-seen survivor),
so the output does not contain exactly one of the pair. -/
theorem claim_c4_counterexample :
    dedupKey dupA = dedupKey dupB ∧ dupA ≠ dupB ∧
    optimize_data_storage nowLate [dupA, dupB] = [] := by
  refine ⟨rfl, by decide, by decide⟩

/-- Retention of a first-occurrence record through the whole policy, given
its timestamp is within the window and the deduplicated input is within
capacity. -/
theorem mem_optimize_of_firstOcc (now : Int) (xs1 xs2 : List JVal) (r : JVal)
    (hfirst : ∀ x ∈ xs1, dedupKey x ≠ dedupKey r)
    (hts : cutoffMillis now ≤ tsKey r)
    (hlen : (specDedup (xs1 ++ r :: xs2)).length ≤ MAX_RECORDS) :
    r ∈ optimize_data_storage now (xs1 ++ r :: xs2) := by
  rw [optimize_eq_specPipeline]
  unfold specPipeline specAgeFilter specCap
  have hsortlen : (List.insertionSort tsLE (specDedup (xs1 ++ r :: xs2))).length
      ≤ MAX_RECORDS := by
    rw [(List.perm_insertionSort tsLE _).length_eq]; exact hlen
  rw [if_neg (by omega)]
  rw [List.mem_filter]
  exact ⟨(List.perm_insertionSort tsLE _).mem_iff.mpr
      (mem_specDedup_firstOcc xs1 xs2 r hfirst),
    decide_eq_true hts⟩

/-- Claim C4 amended: when the first-occurrence record of a duplicated
identity key is within the retention window and the deduplicated input is
within capacity, the policy output retains that first-seen record and no
other record bearing the key — in particular the later duplicate with a
differing count is dropped. -/
theorem claim_c4_dedup_retention (now : Int) (xs1 xs2 : List JVal) (r : JVal)
    (hfirst : ∀ x ∈ xs1, dedupKey x ≠ dedupKey r)
    (hdup : ∃ y ∈ xs2, dedupKey y = dedupKey r ∧ y ≠ r)
    (hts : cutoffMillis now ≤ tsKey r)
    (hlen : (specDedup (xs1 ++ r :: xs2)).length ≤ MAX_RECORDS) :
    r ∈ optimize_data_storage now (xs1 ++ r :: xs2) ∧
    ∀ y ∈ optimize_data_storage now (xs1 ++ r :: xs2),
      dedupKey y = dedupKey r → y = r :=
  ⟨mem_optimize_of_firstOcc now xs1 xs2 r hfirst hts hlen,
   fun y hy hkey => eq_of_mem_specDedup_firstOcc xs1 xs2 r hfirst y
     (mem_specDedup_of_mem_optimize hy) hkey⟩

theorem claim_c4_dedup_retention_witness :
    (∀ x ∈ ([] : List JVal), dedupKey x ≠ dedupKey dupA) ∧
    (∃ y ∈ [dupB], dedupKey y = dedupKey dupA ∧ y ≠ dupA) ∧
    cutoffMillis 0 ≤ tsKey dupA ∧
    (specDedup ([] ++ dupA :: [dupB])).length ≤ MAX_RECORDS ∧
    (dupA ∈ optimize_data_storage 0 ([] ++ dupA :: [dupB]) ∧
     ∀ y ∈ optimize_data_storage 0 ([] ++ dupA :: [dupB]),
       dedupKey y = dedupKey dupA → y = dupA) := by
  have h1 : ∀ x ∈ ([] : List JVal), dedupKey x ≠ dedupKey dupA := by simp
  have h2 : ∃ y ∈ [dupB], dedupKey y = dedupKey dupA ∧ y ≠ dupA := by decide
  have h3 : cutoffMillis 0 ≤ tsKey dupA := by decide
  have h4 : (specDedup ([] ++ dupA :: [dupB])).length ≤ MAX_RECORDS := by decide
  exact ⟨h1, h2, h3, h4, claim_c4_dedup_retention 0 [] [dupB] dupA h1 h2 h3 h4⟩

/-- Claim C8: AppendMerge concatenates the freshly compressed records
after the existing archive records before deduplication, so an existing
archive record wins an identity-key collision against a freshly supplied
duplicate: the stale entry is retained (given window and capacity room)
and the fresh duplicate never appears in the persisted archive. -/
theorem claim_c8_merge_order (now : Int) (ys xs1 xs2 : List JVal) (e y : JVal)
    (hfirst : ∀ x ∈ xs1, dedupKey x ≠ dedupKey e)
    (hy : y ∈ ys)
    (hkey : dedupKey (compress_transaction y) = dedupKey e)
    (hne : compress_transaction y ≠ e)
    (hts : cutoffMillis now ≤ tsKey e)
    (hlen : (specDedup ((xs1 ++ e :: xs2) ++ ys.map compress_transaction)).length
      ≤ MAX_RECORDS) :
    (save_history now (.good (xs1 ++ e :: xs2)) (.arr ys)).1 =
      .good (optimize_data_storage now
        ((xs1 ++ e :: xs2) ++ ys.map compress_transaction)) ∧
    e ∈ optimize_data_storage now ((xs1 ++ e :: xs2) ++ ys.map compress_transaction) ∧
    compress_transaction y ∉
      optimize_data_storage now ((xs1 ++ e :: xs2) ++ ys.map compress_transaction) := by
  have hassoc : (xs1 ++ e :: xs2) ++ ys.map compress_transaction =
      xs1 ++ e :: (xs2 ++ ys.map compress_transaction) := by
    rw [List.append_assoc, List.cons_append]
  refine ⟨rfl, ?_, ?_⟩
  · rw [hassoc]
    exact mem_optimize_of_firstOcc now xs1 (xs2 ++ ys.map compress_transaction) e
      hfirst hts (hassoc ▸ hlen)
  · intro hmem
    rw [hassoc] at hmem
    exact hne (eq_of_mem_specDedup_firstOcc xs1 (xs2 ++ ys.map compress_transaction) e
      hfirst (compress_transaction y) (mem_specDedup_of_mem_optimize hmem) hkey)

/-- An existing compact archive record: identity
`(ts 5, p 7, id stone, seller bob)`, count 1. -/
def mergeOld : JVal :=
  .obj [("ts", .num 5), ("p", .num 7),
        ("i", .obj [("id", .str "stone"), ("c", .num 1)]), ("s", .str "bob")]

/-- A freshly fetched canonical record that compresses to the same
identity key as `mergeOld` but with count 2. -/
def mergeNewCanonical : JVal :=
  .obj [("unixMillisDateSold", .num 5), ("price", .num 7),
        ("item", .obj [("id", .str "stone"), ("count", .num 2)]),
        ("seller", .obj [("name", .str "bob")])]

theorem claim_c8_merge_order_witness :
    (∀ x ∈ ([] : List JVal), dedupKey x ≠ dedupKey mergeOld) ∧
    mergeNewCanonical ∈ [mergeNewCanonical] ∧
    dedupKey (compress_transaction mergeNewCanonical) = dedupKey mergeOld ∧
    compress_transaction mergeNewCanonical ≠ mergeOld ∧
    cutoffMillis 0 ≤ tsKey mergeOld ∧
    (specDedup (([] ++ mergeOld :: []) ++
      [mergeNewCanonical].map compress_transaction)).length ≤ MAX_RECORDS ∧
    ((save_history 0 (.good ([] ++ mergeOld :: [])) (.arr [mergeNewCanonical])).1 =
      .good (optimize_data_storage 0
        (([] ++ mergeOld :: []) ++ [mergeNewCanonical].map compress_transaction)) ∧
     mergeOld ∈ optimize_data_storage 0
       (([] ++ mergeOld :: []) ++ [mergeNewCanonical].map compress_transaction) ∧
     compress_transaction mergeNewCanonical ∉ optimize_data_storage 0
       (([] ++ mergeOld :: []) ++ [mergeNewCanonical].map compress_transaction)) := by
  have h1 : ∀ x ∈ ([] : List JVal), dedupKey x ≠ dedupKey mergeOld := by simp
  have h2 : mergeNewCanonical ∈ [mergeNewCanonical] := by decide
  have h3 : dedupKey (compress_transaction mergeNewCanonical) = dedupKey mergeOld := by
    decide
  have h4 : compress_transaction mergeNewCanonical ≠ mergeOld := by decide
  have h5 : cutoffMillis 0 ≤ tsKey mergeOld := by decide
  have h6 : (specDedup (([] ++ mergeOld :: []) ++
      [mergeNewCanonical].map compress_transaction)).length ≤ MAX_RECORDS := by decide
  exact ⟨h1, h2, h3, h4, h5, h6,
    claim_c8_merge_order 0 [mergeNewCanonical] [] [] mergeOld mergeNewCanonical
      h1 h2 h3 h4 h5 h6⟩

/-- A posted element that is not a record: it lacks the mandatory
canonical fields `price`, `item` and `seller`, carrying only a fresh
timestamp.  Every `.get` receiver it induces in the source is a dict, so
the embedding is exact on this input. -/
def junkElement : JVal := .obj [("unixMillisDateSold", .num 2000000000000)]

/-- Claim C7 as stated is false: `[junkElement]` is not a sequence of
records — its element has no price, no item and no seller — yet
AppendMerge does not fail with the invalid-input rejection: it reports
success and persists the null-filled compression of the element, mutating
the archive; Overwrite likewise accepts the input. -/
theorem claim_c7_counterexample :
    pyGet junkElement "price" = .null ∧
    pyGet junkElement "item" = .null ∧
    pyGet junkElement "seller" = .null ∧
    save_history nowLate (.good []) (.arr [junkElement]) =
      (.good [compress_transaction junkElement], .ok 1) ∧
    (save_history nowLate (.good []) (.arr [junkElement])).2 ≠ .invalidInput ∧
    (save_history nowLate (.good []) (.arr [junkElement])).1 ≠ .good [] ∧
    (overwrite_history nowLate (.good []) (.arr [junkElement])).2 ≠ .invalidInput := by
  decide
